import Mathlib

/-!
# Verification of the BlockSci blockchain access layer

Shallow embedding of `src/python-interface/blockchain_py.cpp` together with
the operations it exposes (negative-index block access, slice access,
DataConfiguration pickling) and, where the implementation lives outside the
provided sources, models built from the specification (chain segmentation,
hash lookup, address resolution).
-/

namespace BlockSci

/-- Error taxonomy of the read API (spec section 7): index errors, slice
errors, segmentation argument errors, missing-hash errors and unparseable
address strings. -/
inductive BErr where
  | indexOutOfRange
  | invalidSlice
  | invalidArgument
  | notFound
  | malformedAddress
deriving DecidableEq, Repr

/-- Errors of the DataConfiguration pickle glue: `malformedState` embeds the
`std::runtime_error("Invalid state!")` thrown on a wrong-sized state tuple,
`castError` embeds the distinct cast exception raised when a tuple element
does not convert to the expected C++ type. -/
inductive PickleErr where
  | malformedState
  | castError
deriving DecidableEq, Repr

/-- A dynamically-typed element of a pickle state tuple, restricted to the
three value shapes the DataConfiguration pickle logic distinguishes. -/
inductive PyVal where
  | str (s : String)
  | bool (b : Bool)
  | int (n : Int)
deriving DecidableEq, Repr

/-- The configuration value type: data directory path, error-on-reorg flag,
and the number of trailing blocks ignored (`BlockHeight`, a signed integer). -/
structure DataConfiguration where
  dataDirectory : String
  errorOnReorg : Bool
  blocksIgnored : Int
deriving DecidableEq, Repr

/-- Embeds the pickle getstate lambda: it builds the tuple
`(config.dataDirectory.native(), config.errorOnReorg, config.blocksIgnored)`. -/
def dataConfigGetState (c : DataConfiguration) : List PyVal :=
  [PyVal.str c.dataDirectory, PyVal.bool c.errorOnReorg, PyVal.int c.blocksIgnored]

/-- Embeds `t[0].cast<std::string>()`: the string caster accepts a string
value; a bool or an int does not convert and the cast fails. -/
def castString : PyVal → Except PickleErr String
  | PyVal.str s => Except.ok s
  | _ => Except.error PickleErr.castError

/-- Embeds `t[1].cast<bool>()`: `handle::cast` runs the bool caster with
conversion enabled, so a genuine bool is taken directly and an integer is
converted through its `nb_bool` slot (0 to false, nonzero to true); a
string has no `nb_bool` and the cast fails. -/
def castBool : PyVal → Except PickleErr Bool
  | PyVal.bool b => Except.ok b
  | PyVal.int n => Except.ok (decide (n ≠ 0))
  | PyVal.str _ => Except.error PickleErr.castError

/-- Embeds `t[2].cast<BlockHeight>()`: the arithmetic caster accepts any
Python int — including a bool, which is an int subtype (True to 1, False
to 0) — and fails on a string. -/
def castInt : PyVal → Except PickleErr Int
  | PyVal.int n => Except.ok n
  | PyVal.bool b => Except.ok (if b then 1 else 0)
  | PyVal.str _ => Except.error PickleErr.castError

/-- Whether a tuple element is a Python string. -/
def isStr : PyVal → Bool
  | PyVal.str _ => true
  | _ => false

/-- Embeds the pickle setstate lambda: `if (t.size() != 3) throw
std::runtime_error("Invalid state!");` then
`DataConfiguration(t[0].cast<std::string>(), t[1].cast<bool>(),
t[2].cast<BlockHeight>())`. -/
def dataConfigSetState (t : List PyVal) : Except PickleErr DataConfiguration :=
  if t.length ≠ 3 then Except.error PickleErr.malformedState
  else do
    let d ← castString (t.getD 0 (PyVal.int 0))
    let e ← castBool (t.getD 1 (PyVal.int 0))
    let b ← castInt (t.getD 2 (PyVal.int 0))
    return ⟨d, e, b⟩

/-- Embeds the `__getitem__(BlockHeight)` overload:
`if (i < 0) i += chain.size(); if (i >= chain.size()) throw
py::index_error(); return chain[i];`.  The final raw access `chain[i]` has
no further bounds check, so the model returns the resolved signed height
that the C++ code hands to `operator[]`. -/
def blockchainAt (N : Nat) (height : Int) : Except BErr Int :=
  let i := if height < 0 then height + N else height
  if (N : Int) ≤ i then Except.error BErr.indexOutOfRange
  else Except.ok i

/-! ## Slice access (`__getitem__(py::slice)`)

The C++ overload calls `slice.compute(chain.size(), &start, &stop, &step,
&slicelength)` — CPython's `PySlice_GetIndicesEx` index adjustment written
into `size_t` out-parameters — and then materializes
`chain | ranges::view::slice(start, stop) | ranges::view::stride(step)`. -/

/-- One index adjustment of `PySlice_GetIndicesEx` over a sequence of length
`N`: a negative index has `N` added and is then floored (at `-1` for a
negative step, at `0` otherwise); an index at or above `N` is clamped (to
`N - 1` for a negative step, to `N` otherwise). `stepNeg` tells whether the
slice step is negative. -/
def pySliceAdjust (N : Nat) (v : Int) (stepNeg : Bool) : Int :=
  if v < 0 then
    if v + N < 0 then (if stepNeg then -1 else 0) else v + N
  else
    if (N : Int) ≤ v then (if stepNeg then (N : Int) - 1 else (N : Int)) else v

/-- Reinterpretation of a signed adjusted index as the `size_t`
out-parameter it is stored into (64-bit two's complement wrap). -/
def toSizeT (x : Int) : Nat := (x % (2 ^ 64 : Int)).toNat

/-- `ranges::view::slice(start, stop)`: the elements at positions
`[start, stop)` of the underlying sequence. -/
def viewSlice (start stop : Nat) (xs : List α) : List α :=
  (xs.drop start).take (stop - start)

/-- `ranges::view::stride(step)`: keeps the first element, then every
`step`-th element after it. -/
def stride (step : Nat) : List α → List α
  | [] => []
  | x :: xs => x :: stride step (xs.drop (step - 1))
termination_by l => l.length
decreasing_by
  simp only [List.length_drop, List.length_cons]
  omega

/-- Forward iteration (`__iter__`, `chain.begin()` to `chain.end()`):
the blocks of the chain in height order, identified by their heights. -/
def blockchainIter (N : Nat) : List Nat := List.range N

/-- Outcome of the slice overload: a Python-level error, a block sequence,
or a hit of `ranges::view::slice`'s `0 ≤ from && from ≤ to` precondition
(`RANGES_EXPECT`) — an assertion abort in debug builds and undefined
behavior otherwise, a distinct outcome that is not any Python-visible
result. -/
inductive SliceOutcome where
  | err (e : BErr)
  | ub
  | ok (blocks : List Nat)
deriving DecidableEq, Repr

/-- Embeds the `__getitem__(py::slice)` overload: a zero step makes
`slice.compute` fail (the `InvalidSlice` error); otherwise the computed
`start`, `stop` and `step` are reinterpreted as `size_t` and handed to
`ranges::view::slice` — whose precondition `from ≤ to` is violated whenever
the adjusted stop is below the adjusted start — and the block sequence is
sliced then strided. -/
def blockchainSlice (N : Nat) (a b s : Int) : SliceOutcome :=
  if s = 0 then SliceOutcome.err BErr.invalidSlice
  else if toSizeT (pySliceAdjust N b (decide (s < 0))) <
      toSizeT (pySliceAdjust N a (decide (s < 0))) then SliceOutcome.ub
  else
    SliceOutcome.ok (stride (toSizeT s)
      (viewSlice (toSizeT (pySliceAdjust N a (decide (s < 0))))
        (toSizeT (pySliceAdjust N b (decide (s < 0))))
        (blockchainIter N)))

/-- The effective start position of a slice with positive step: the
adjusted start index, a natural number in `[0, N]`. -/
def pyStartPos (N : Nat) (a : Int) : Nat := (pySliceAdjust N a false).toNat

/-- The effective stop position of a slice with positive step. -/
def pyStopPos (N : Nat) (b : Int) : Nat := (pySliceAdjust N b false).toNat

/-! ## Chain segmentation

`segment_indexes` forwards to `segmentChainIndexes`, whose implementation is
outside the provided sources; the segmenter below is modelled from the
specification's Chain Segmenter contract (section 4.4). -/

/-- Modelled from the spec: the running transaction total — the number of
transactions in the first `m` blocks, the chain being abstracted as its list
of per-block transaction counts. -/
def prefixTxCount (counts : List Nat) (m : Nat) : Nat := (counts.take m).sum

/-- Least number at or after `start` within `fuel` steps satisfying `p`
(`start + fuel` when none does). -/
def leastFrom (p : Nat → Bool) : Nat → Nat → Nat
  | start, 0 => start
  | start, fuel + 1 => if p start then start else leastFrom p (start + 1) fuel

/-- Modelled from the spec: the greedy cut point for target `k` — the least
block count `m` whose running total has reached or exceeded `k * T / K`
(compared multiplicatively as `k * T ≤ K * prefix m`), the walk stopping at
the block count `N`. -/
def cutPoint (counts : List Nat) (K k : Nat) : Nat :=
  leastFrom (fun m => decide (k * counts.sum ≤ K * prefixTxCount counts m)) 0
    (counts.length + 1)

/-- Modelled from the spec: boundary `j` of the K-way segmentation — height
0 on the left, the greedy cut points in between, and `N` as the last
boundary (the final segment absorbs any remainder up to `N`). -/
def segBoundary (counts : List Nat) (K j : Nat) : Nat :=
  if j = 0 then 0
  else if K ≤ j then counts.length
  else cutPoint counts K j

/-- The K contiguous height ranges of the greedy segmentation. -/
def segs (counts : List Nat) (K : Nat) : List (Nat × Nat) :=
  (List.range K).map
    (fun j => (segBoundary counts K j, segBoundary counts K (j + 1)))

/-- Modelled from the spec: `segmentIndexes(K)` fails with `InvalidArgument`
for `K ≤ 0` and otherwise returns the K greedy prefix-sum height ranges. -/
def segmentIndexes (counts : List Nat) (K : Int) :
    Except BErr (List (Nat × Nat)) :=
  if K ≤ 0 then Except.error BErr.invalidArgument
  else Except.ok (segs counts K.toNat)

/-- Transaction count of the blocks in the height range `[p.1, p.2)`. -/
def rangeTxCount (counts : List Nat) (p : Nat × Nat) : Nat :=
  ((counts.take p.2).drop p.1).sum

/-! ## Hash lookup

`tx_with_hash` constructs `Transaction{hash, access}`, whose implementation
is outside the provided sources; modelled from the specification: the hash
resolves through the HashIndex to a dense index, absence is `NotFound`. -/

/-- Modelled from the spec: the HashIndex over the transaction store — the
store is abstracted as the list of transaction hashes in dense-index order
(hashes abstracted as numbers), and lookup returns the dense index holding
the given hash, if any. -/
def hashIndexLookup : List Nat → Nat → Option Nat
  | [], _ => none
  | x :: xs, h => if x = h then some 0 else (hashIndexLookup xs h).map (· + 1)

/-- The hash of the transaction at dense index `i` of the store. -/
def txHash (txHashes : List Nat) (i : Nat) : Nat := txHashes.getD i 0

/-- Modelled from the spec: `txWithHash` resolves the hash through the
HashIndex and fails with `NotFound` when it is absent; the returned
transaction is represented by its dense index. -/
def txWithHash (txHashes : List Nat) (h : Nat) : Except BErr Nat :=
  match hashIndexLookup txHashes h with
  | some i => Except.ok i
  | none => Except.error BErr.notFound

/-! ## Address resolution

`address_from_index` and `address_from_string` call `Address::getScript` and
`getAddressFromString`, both outside the provided sources; modelled from the
specification's AddressIndex and Script/Address type system contracts. -/

/-- The closed enumeration of address/script encodings. -/
inductive AddressType where
  | pubkey
  | pubkeyhash
  | witnessPubkeyhash
  | scripthash
  | witnessScripthash
  | multisig
  | nulldata
  | nonstandard
deriving DecidableEq, Repr

/-- Modelled from the spec: a ScriptVariant is a tagged union holding one
concrete payload per AddressType; payloads are abstracted as numeric
identifiers. -/
structure ScriptVariant where
  tag : AddressType
  payload : Nat
deriving DecidableEq, Repr

/-- Modelled from the spec: `addressCount(type)` — the number of dense
indices allocated for the given type, the script store being abstracted as
the dense per-type list of script payloads. -/
def addressCount (scripts : AddressType → List ScriptVariant)
    (t : AddressType) : Nat :=
  (scripts t).length

/-- Modelled from the spec: `addressFromIndex` constructs the Address
`(i, t)` and resolves its script payload, failing with `IndexOutOfRange`
when the index is at or beyond `addressCount t`. -/
def addressFromIndex (scripts : AddressType → List ScriptVariant) (i : Nat)
    (t : AddressType) : Except BErr ScriptVariant :=
  match (scripts t)[i]? with
  | some v => Except.ok v
  | none => Except.error BErr.indexOutOfRange

/-- Outcome of parsing an address string and probing the AddressIndex:
unparseable, well-formed but unknown, or known as the (index, type) pair. -/
inductive AddrLookup where
  | malformed
  | unknown
  | known (i : Nat) (t : AddressType)
deriving DecidableEq, Repr

/-- Total script resolution for an address already vouched for by the
AddressIndex. -/
def addressScript (scripts : AddressType → List ScriptVariant) (i : Nat)
    (t : AddressType) : ScriptVariant :=
  (scripts t).getD i ⟨AddressType.nonstandard, 0⟩

/-- Modelled from the spec: `getAddressFromString` parses the string —
failing with `MalformedAddress` when it matches no known encoding — and
otherwise looks it up in the AddressIndex, yielding the (index, type) pair
when known and an absent optional when well-formed but unknown. The
parse/lookup outcome is a parameter, since the concrete encodings live
outside this core. -/
def getAddressFromString (world : String → AddrLookup) (s : String) :
    Except BErr (Option (Nat × AddressType)) :=
  match world s with
  | AddrLookup.malformed => Except.error BErr.malformedAddress
  | AddrLookup.unknown => Except.ok none
  | AddrLookup.known i t => Except.ok (some (i, t))

/-- Embeds `address_from_string`: forwards `getAddressFromString` and maps a
present address to its script payload (`address->getScript().wrapped`). -/
def addressFromString (world : String → AddrLookup)
    (scripts : AddressType → List ScriptVariant) (s : String) :
    Except BErr (Option ScriptVariant) :=
  match getAddressFromString world s with
  | Except.error e => Except.error e
  | Except.ok none => Except.ok none
  | Except.ok (some (i, t)) => Except.ok (some (addressScript scripts i t))

/-- A concrete parse/lookup world used to exercise the address model. -/
def sampleWorld (s : String) : AddrLookup :=
  if s = "known" then AddrLookup.known 1 AddressType.pubkeyhash
  else if s = "absent" then AddrLookup.unknown
  else AddrLookup.malformed

/-- A concrete script store used to exercise the address model. -/
def sampleScripts : AddressType → List ScriptVariant
  | AddressType.pubkeyhash =>
      [⟨AddressType.pubkeyhash, 10⟩, ⟨AddressType.pubkeyhash, 11⟩]
  | _ => []

/-! ## Helper lemmas for the pickle model -/

/-- Deserializing the serializer's output restores the original value. -/
theorem setState_getState (c : DataConfiguration) :
    dataConfigSetState (dataConfigGetState c) = Except.ok c := rfl

/-! ## Helper lemmas for the slice model -/

/-- Dropping from a step-1 range shifts its start. -/
theorem range'_drop (n m s : Nat) :
    (List.range' s n).drop m = List.range' (s + m) (n - m) := by
  induction n generalizing m s with
  | zero => simp
  | succ n ih =>
    cases m with
    | zero => simp
    | succ m =>
      rw [List.range'_succ, List.drop_succ_cons, ih,
        show s + (m + 1) = s + 1 + m by omega, show n + 1 - (m + 1) = n - m by omega]

/-- Taking from a step-1 range truncates its length. -/
theorem range'_take (n m s : Nat) :
    (List.range' s n).take m = List.range' s (min m n) := by
  induction n generalizing m s with
  | zero => simp
  | succ n ih =>
    cases m with
    | zero => simp
    | succ m =>
      rw [List.range'_succ, List.take_succ_cons, ih, Nat.succ_min_succ,
        List.range'_succ]

/-- A stride of 1 keeps every element. -/
theorem stride_one (xs : List α) : stride 1 xs = xs := by
  induction xs with
  | nil => simp [stride]
  | cons x xs ih => simp [stride, ih]

/-- Comparison against the ceiling of `m / k`. -/
theorem lt_ceilDiv_iff (k m i : Nat) (hk : 0 < k) :
    i < (m + k - 1) / k ↔ i * k < m := by
  rw [Nat.lt_iff_add_one_le, Nat.le_div_iff_mul_le hk, add_mul, one_mul]
  omega

/-- Striding a step-1 range yields a step-`k` range of ceiling length. -/
theorem stride_range' (k : Nat) (hk : 0 < k) :
    ∀ n s, stride k (List.range' s n) = List.range' s ((n + k - 1) / k) k := by
  intro n
  induction n using Nat.strong_induction_on with
  | _ n ih =>
    intro s
    match n with
    | 0 =>
      rw [show (0 + k - 1) / k = 0 from Nat.div_eq_of_lt (by omega)]
      simp [stride]
    | Nat.succ m =>
      have hcut : (m - (k - 1) + k - 1) / k = m / k := by
        rcases le_or_lt (k - 1) m with h | h
        · rw [show m - (k - 1) + k - 1 = m by omega]
        · rw [show m - (k - 1) + k - 1 = k - 1 by omega,
            Nat.div_eq_of_lt (by omega), Nat.div_eq_of_lt (by omega)]
      rw [List.range'_succ]
      simp only [stride]
      rw [range'_drop, ih (m - (k - 1)) (by omega) (s + 1 + (k - 1)), hcut,
        show s + 1 + (k - 1) = s + k by omega,
        show m + 1 + k - 1 = m + k by omega, Nat.add_div_right m hk,
        List.range'_succ]

/-- The start adjustment for a positive step never goes below 0. -/
theorem pySliceAdjust_nonneg (N : Nat) (v : Int) : 0 ≤ pySliceAdjust N v false := by
  unfold pySliceAdjust
  simp only [Bool.false_eq_true, if_false]
  split_ifs <;> omega

/-- The adjustment for a positive step never exceeds the length. -/
theorem pySliceAdjust_le (N : Nat) (v : Int) : pySliceAdjust N v false ≤ N := by
  unfold pySliceAdjust
  simp only [Bool.false_eq_true, if_false]
  split_ifs <;> omega

/-- Within `[0, 2^64)` the `size_t` reinterpretation is the identity. -/
theorem toSizeT_eq_toNat (x : Int) (h0 : 0 ≤ x) (h1 : x < 2 ^ 64) :
    toSizeT x = x.toNat := by
  unfold toSizeT
  rw [Int.emod_eq_of_lt h0 h1]

/-- For a positive step below the word size whose adjusted start does not
exceed the adjusted stop, the slice overload returns the step-`s` range of
positions starting at the adjusted start. -/
theorem blockchainSlice_pos (N : Nat) (a b s : Int) (hN : N < 2 ^ 64)
    (hs : 0 < s) (hs64 : s < 2 ^ 64) (hab : pyStartPos N a ≤ pyStopPos N b) :
    blockchainSlice N a b s =
      SliceOutcome.ok (List.range' (pyStartPos N a)
        ((pyStopPos N b - pyStartPos N a + s.toNat - 1) / s.toNat) s.toNat) := by
  have hsne : ¬ s = 0 := by omega
  have hneg : decide (s < 0) = false := decide_eq_false (by omega)
  have hstart0 := pySliceAdjust_nonneg N a
  have hstart1 := pySliceAdjust_le N a
  have hstop0 := pySliceAdjust_nonneg N b
  have hstop1 := pySliceAdjust_le N b
  have hk : 0 < s.toNat := by omega
  have hab' : (pySliceAdjust N a false).toNat ≤ (pySliceAdjust N b false).toNat :=
    hab
  unfold blockchainSlice pyStartPos pyStopPos
  rw [if_neg hsne, hneg,
    toSizeT_eq_toNat _ hstart0 (by omega), toSizeT_eq_toNat _ hstop0 (by omega),
    toSizeT_eq_toNat s (by omega) hs64,
    if_neg (show ¬ (pySliceAdjust N b false).toNat <
      (pySliceAdjust N a false).toNat by omega)]
  unfold viewSlice blockchainIter
  rw [List.range_eq_range', range'_drop, Nat.zero_add, range'_take,
    Nat.min_eq_left
      (Nat.sub_le_sub_right (show (pySliceAdjust N b false).toNat ≤ N by omega) _),
    stride_range' s.toNat hk]

/-- Membership in the strided position range: exactly the positions
`start + j * step` that stay below `stop`. -/
theorem mem_stride_range (start stop k h : Nat) (hk : 0 < k) :
    h ∈ List.range' start ((stop - start + k - 1) / k) k ↔
      ∃ j : Nat, h = start + j * k ∧ h < stop := by
  rw [List.mem_range']
  constructor
  · rintro ⟨i, hi, rfl⟩
    have hik := (lt_ceilDiv_iff k (stop - start) i hk).mp hi
    refine ⟨i, by rw [Nat.mul_comm], ?_⟩
    rw [Nat.mul_comm]
    omega
  · rintro ⟨j, rfl, hlt⟩
    exact ⟨j, (lt_ceilDiv_iff k (stop - start) j hk).mpr (by omega),
      by rw [Nat.mul_comm]⟩

/-! ## Helper lemmas for the segmenter model -/

/-- The least-element walk never moves backwards. -/
theorem le_leastFrom (p : Nat → Bool) :
    ∀ (fuel start : Nat), start ≤ leastFrom p start fuel := by
  intro fuel
  induction fuel with
  | zero => intro start; exact Nat.le_refl start
  | succ fuel ih =>
    intro start
    simp only [leastFrom]
    split
    · exact Nat.le_refl start
    · exact Nat.le_trans (Nat.le_succ start) (ih (start + 1))

/-- A pointwise weaker predicate is reached no later. -/
theorem leastFrom_mono (p q : Nat → Bool) (himp : ∀ m, q m = true → p m = true) :
    ∀ (fuel start : Nat), leastFrom p start fuel ≤ leastFrom q start fuel := by
  intro fuel
  induction fuel with
  | zero => intro start; exact Nat.le_refl start
  | succ fuel ih =>
    intro start
    simp only [leastFrom]
    by_cases hq : q start = true
    · rw [if_pos hq, if_pos (himp start hq)]
    · rw [if_neg hq]
      by_cases hp : p start = true
      · rw [if_pos hp]
        exact Nat.le_trans (Nat.le_succ start) (le_leastFrom q fuel (start + 1))
      · rw [if_neg hp]
        exact ih (start + 1)

/-- The walk stops at or before any point satisfying the predicate. -/
theorem leastFrom_le (p : Nat → Bool) (t : Nat) (ht : p t = true) :
    ∀ (fuel start : Nat), start ≤ t → t < start + fuel →
      leastFrom p start fuel ≤ t := by
  intro fuel
  induction fuel with
  | zero => intro start h1 h2; omega
  | succ fuel ih =>
    intro start h1 h2
    simp only [leastFrom]
    by_cases hp : p start = true
    · rw [if_pos hp]; exact h1
    · rw [if_neg hp]
      have hne : start ≠ t := by
        intro he
        rw [he] at hp
        exact hp ht
      exact ih (start + 1) (by omega) (by omega)

/-- A prefix sum never exceeds the full sum. -/
theorem sum_take_le (l : List Nat) (m : Nat) : (l.take m).sum ≤ l.sum := by
  conv_rhs => rw [← List.take_append_drop m l]
  rw [List.sum_append]
  exact Nat.le_add_right _ _

/-- The running transaction total is monotone in the block count. -/
theorem prefixTxCount_mono (counts : List Nat) (m m' : Nat) (h : m ≤ m') :
    prefixTxCount counts m ≤ prefixTxCount counts m' := by
  unfold prefixTxCount
  rw [show counts.take m = (counts.take m').take m by
    rw [List.take_take, Nat.min_eq_left h]]
  exact sum_take_le _ _

/-- The running total over the whole chain is T. -/
theorem prefixTxCount_length (counts : List Nat) :
    prefixTxCount counts counts.length = counts.sum := by
  unfold prefixTxCount
  rw [List.take_length]

/-- A range's transaction count is the difference of running totals. -/
theorem rangeTxCount_eq (counts : List Nat) (e s : Nat) (hse : s ≤ e) :
    rangeTxCount counts (s, e) =
      prefixTxCount counts e - prefixTxCount counts s := by
  unfold rangeTxCount prefixTxCount
  show ((counts.take e).drop s).sum = (counts.take e).sum - (counts.take s).sum
  have hsum := congrArg List.sum (List.take_append_drop s (counts.take e))
  rw [List.sum_append, List.take_take, Nat.min_eq_left hse] at hsum
  omega

/-- For a target below the chunk count, the greedy cut stays within the
chain. -/
theorem cutPoint_le (counts : List Nat) (K k : Nat) (hkK : k ≤ K) :
    cutPoint counts K k ≤ counts.length := by
  unfold cutPoint
  apply leastFrom_le _ counts.length ?_ (counts.length + 1) 0 (Nat.zero_le _)
    (by omega)
  rw [decide_eq_true_eq]
  unfold prefixTxCount
  rw [List.take_length]
  exact Nat.mul_le_mul hkK (Nat.le_refl _)

/-- Greedy cut points are monotone in the target index. -/
theorem cutPoint_mono (counts : List Nat) (K k k' : Nat) (h : k ≤ k') :
    cutPoint counts K k ≤ cutPoint counts K k' := by
  unfold cutPoint
  apply leastFrom_mono
  intro m hm
  rw [decide_eq_true_eq] at hm ⊢
  exact Nat.le_trans (Nat.mul_le_mul h (Nat.le_refl _)) hm

/-- The first boundary is height 0. -/
theorem segBoundary_zero (counts : List Nat) (K : Nat) :
    segBoundary counts K 0 = 0 := rfl

/-- The last boundary is the block count. -/
theorem segBoundary_last (counts : List Nat) (K : Nat) (hK : 0 < K) :
    segBoundary counts K K = counts.length := by
  unfold segBoundary
  rw [if_neg (show ¬ K = 0 by omega), if_pos (Nat.le_refl K)]

/-- Every boundary stays within the chain. -/
theorem segBoundary_le (counts : List Nat) (K : Nat) (hK : 0 < K) (j : Nat) :
    segBoundary counts K j ≤ counts.length := by
  unfold segBoundary
  split_ifs with h1 h2
  · exact Nat.zero_le _
  · exact Nat.le_refl _
  · exact cutPoint_le counts K j (by omega)

/-- Consecutive boundaries are ordered. -/
theorem segBoundary_step (counts : List Nat) (K : Nat) (hK : 0 < K) (j : Nat) :
    segBoundary counts K j ≤ segBoundary counts K (j + 1) := by
  rcases Nat.eq_zero_or_pos j with rfl | hj
  · rw [segBoundary_zero]
    exact Nat.zero_le _
  · by_cases hKj : K ≤ j
    · unfold segBoundary
      rw [if_neg (show ¬ j = 0 by omega), if_pos hKj,
        if_neg (show ¬ j + 1 = 0 by omega), if_pos (show K ≤ j + 1 by omega)]
    · by_cases hKj1 : K ≤ j + 1
      · unfold segBoundary
        rw [if_neg (show ¬ j = 0 by omega), if_neg hKj,
          if_neg (show ¬ j + 1 = 0 by omega), if_pos hKj1]
        exact cutPoint_le counts K j (by omega)
      · unfold segBoundary
        rw [if_neg (show ¬ j = 0 by omega), if_neg hKj,
          if_neg (show ¬ j + 1 = 0 by omega), if_neg hKj1]
        exact cutPoint_mono counts K j (j + 1) (Nat.le_succ j)

/-- Boundaries are monotone. -/
theorem segBoundary_mono (counts : List Nat) (K : Nat) (hK : 0 < K) :
    ∀ i j, i ≤ j → segBoundary counts K i ≤ segBoundary counts K j := by
  intro i j hij
  induction j with
  | zero =>
    have h0 : i = 0 := by omega
    rw [h0]
  | succ j ih =>
    rcases Nat.lt_or_ge i (j + 1) with h | h
    · exact Nat.le_trans (ih (by omega)) (segBoundary_step counts K hK j)
    · have he : i = j + 1 := by omega
      rw [he]

/-- A step-monotone function is monotone. -/
theorem mono_of_step (g : Nat → Nat) (hg : ∀ j, g j ≤ g (j + 1)) :
    ∀ i j, i ≤ j → g i ≤ g j := by
  intro i j hij
  induction j with
  | zero =>
    have h0 : i = 0 := by omega
    rw [h0]
  | succ j ih =>
    rcases Nat.lt_or_ge i (j + 1) with h | h
    · exact Nat.le_trans (ih (by omega)) (hg j)
    · have he : i = j + 1 := by omega
      rw [he]

/-- Telescoping sum of consecutive differences of a step-monotone map. -/
theorem sum_telescope (g : Nat → Nat) (hg : ∀ j, g j ≤ g (j + 1)) :
    ∀ K, ((List.range K).map (fun j => g (j + 1) - g j)).sum = g K - g 0 := by
  intro K
  induction K with
  | zero => simp
  | succ K ih =>
    rw [List.range_succ, List.map_append, List.sum_append, ih]
    simp only [List.map_cons, List.map_nil, List.sum_cons, List.sum_nil]
    have h1 : g 0 ≤ g K := mono_of_step g hg 0 K (Nat.zero_le K)
    have h2 : g K ≤ g (K + 1) := hg K
    omega

/-- A list of positive naturals has sum at least its length. -/
theorem length_le_sum (l : List Nat) (h : ∀ x ∈ l, 1 ≤ x) :
    l.length ≤ l.sum := by
  induction l with
  | nil => simp
  | cons x xs ih =>
    simp only [List.length_cons, List.sum_cons]
    have hx := h x (List.mem_cons_self x xs)
    have hxs := ih (fun y hy => h y (List.mem_cons_of_mem x hy))
    omega

/-- Any point between the outer boundaries lies in some consecutive pair. -/
theorem exists_cross (b : Nat → Nat) (K h : Nat) (h0 : b 0 ≤ h)
    (hK : h < b K) : ∃ j, j < K ∧ b j ≤ h ∧ h < b (j + 1) := by
  induction K with
  | zero => omega
  | succ K ih =>
    rcases le_or_lt (b K) h with hle | hlt
    · exact ⟨K, Nat.lt_succ_self K, hle, hK⟩
    · rcases ih hlt with ⟨j, hj, hbl, hbr⟩
      exact ⟨j, by omega, hbl, hbr⟩

/-- The segmentation has exactly K ranges. -/
theorem segs_length (counts : List Nat) (K : Nat) :
    (segs counts K).length = K := by
  unfold segs
  rw [List.length_map, List.length_range]

/-- The j-th range is the j-th boundary pair. -/
theorem segs_get (counts : List Nat) (K : Nat) (j : Nat)
    (hj : j < (segs counts K).length) :
    (segs counts K).get ⟨j, hj⟩ =
      (segBoundary counts K j, segBoundary counts K (j + 1)) := by
  unfold segs at hj ⊢
  rw [List.get_eq_getElem, List.getElem_map, List.getElem_range]

/-- Membership in the segmentation. -/
theorem mem_segs (counts : List Nat) (K : Nat) (p : Nat × Nat) :
    p ∈ segs counts K ↔
      ∃ j, j < K ∧
        p = (segBoundary counts K j, segBoundary counts K (j + 1)) := by
  unfold segs
  rw [List.mem_map]
  constructor
  · rintro ⟨j, hj, rfl⟩
    exact ⟨j, List.mem_range.mp hj, rfl⟩
  · rintro ⟨j, hj, rfl⟩
    exact ⟨j, List.mem_range.mpr hj, rfl⟩

/-! ## Helper lemmas for the hash index model -/

/-- An absent hash is not found. -/
theorem hashIndexLookup_not_mem (l : List Nat) (h : Nat) (hm : h ∉ l) :
    hashIndexLookup l h = none := by
  induction l with
  | nil => rfl
  | cons x xs ih =>
    unfold hashIndexLookup
    rw [if_neg (show ¬ x = h from fun he => hm (he ▸ List.mem_cons_self x xs)),
      ih (fun hx => hm (List.mem_cons_of_mem x hx))]
    rfl

/-- A present hash is found at an index holding that hash. -/
theorem hashIndexLookup_mem (l : List Nat) (h : Nat) (hm : h ∈ l) :
    ∃ i, hashIndexLookup l h = some i ∧ txHash l i = h := by
  induction l with
  | nil => cases hm
  | cons x xs ih =>
    by_cases hx : x = h
    · refine ⟨0, ?_, hx⟩
      unfold hashIndexLookup
      rw [if_pos hx]
    · have hxs : h ∈ xs := by
        rcases List.mem_cons.mp hm with he | hxs
        · exact absurd he.symm hx
        · exact hxs
      rcases ih hxs with ⟨i, hl, hh⟩
      refine ⟨i + 1, ?_, hh⟩
      unfold hashIndexLookup
      rw [if_neg hx, hl]
      rfl

/-! ## Claim theorems (pickle and height access) -/

/-- C4: serializing a DataConfiguration to its 3-element tuple and
deserializing it yields a structurally equal configuration, for every
configuration value (in particular the literal ("/data", true, 2)). -/
theorem dataConfig_pickle_roundtrip (c : DataConfiguration) :
    dataConfigSetState (dataConfigGetState c) = Except.ok c :=
  setState_getState c

/-- C4 witness: the round trip at the spec's literal example value. -/
theorem dataConfig_pickle_roundtrip_witness :
    dataConfigSetState (dataConfigGetState ⟨"/data", true, 2⟩) =
      Except.ok ⟨"/data", true, 2⟩ :=
  dataConfig_pickle_roundtrip ⟨"/data", true, 2⟩

/-- C10: the serializer always emits exactly 3 tuple elements, so the
size-check error branch of the deserializer is unreachable on
serializer-produced input. -/
theorem dataConfig_getState_never_malformed (c : DataConfiguration) :
    (dataConfigGetState c).length = 3 ∧
      dataConfigSetState (dataConfigGetState c) ≠ Except.error PickleErr.malformedState := by
  refine ⟨rfl, ?_⟩
  rw [setState_getState c]
  intro h
  exact Except.noConfusion h

/-- C10 witness: evaluated at a concrete configuration. -/
theorem dataConfig_getState_never_malformed_witness :
    (dataConfigGetState ⟨"/data", true, 2⟩).length = 3 ∧
      dataConfigSetState (dataConfigGetState ⟨"/data", true, 2⟩) ≠
        Except.error PickleErr.malformedState :=
  dataConfig_getState_never_malformed ⟨"/data", true, 2⟩

/-- C5 counterexample: the 3-tuple (0, 0, 0) is not typed (string, bool,
integer), yet it fails with a cast error rather than `MalformedState`; and
the 3-tuple ("/d", 1, 2) is not typed (string, bool, integer) either — its
second element is an int — yet deserialization succeeds, because the
convert-enabled bool cast accepts the int 1. -/
theorem dataConfigSetState_wrong_types_not_malformed :
    dataConfigSetState [PyVal.int 0, PyVal.int 0, PyVal.int 0] =
        Except.error PickleErr.castError ∧
      dataConfigSetState [PyVal.int 0, PyVal.int 0, PyVal.int 0] ≠
        Except.error PickleErr.malformedState ∧
      dataConfigSetState [PyVal.str ("/d"), PyVal.int 1, PyVal.int 2] =
        Except.ok ⟨"/d", true, 2⟩ := by
  refine ⟨rfl, ?_, rfl⟩
  intro h
  exact PickleErr.noConfusion (Except.error.inj h)

/-- C5 amended: deserialization fails with `MalformedState` exactly when the
tuple does not have 3 elements. A 3-element tuple typed (string, bool,
integer) succeeds with those field values; more generally — the
convert-enabled casts accept an int where a bool is expected and a bool
where an integer is expected — a 3-element tuple succeeds exactly when its
first element is a string and the other two elements are not strings, and
otherwise fails with a cast error, never with `MalformedState`. -/
theorem dataConfigSetState_spec (t : List PyVal) :
    (t.length ≠ 3 → dataConfigSetState t = Except.error PickleErr.malformedState) ∧
    (∀ s b n, t = [PyVal.str s, PyVal.bool b, PyVal.int n] →
      dataConfigSetState t = Except.ok ⟨s, b, n⟩) ∧
    (∀ v0 v1 v2, t = [v0, v1, v2] →
      (isStr v0 = true → isStr v1 = false → isStr v2 = false →
        ∃ c, dataConfigSetState t = Except.ok c) ∧
      ((isStr v0 = false ∨ isStr v1 = true ∨ isStr v2 = true) →
        dataConfigSetState t = Except.error PickleErr.castError)) := by
  refine ⟨?_, ?_, ?_⟩
  · intro h
    simp [dataConfigSetState, h]
  · rintro s b n rfl
    rfl
  · rintro v0 v1 v2 rfl
    constructor
    · intro h0 h1 h2
      cases v0 <;> cases v1 <;> cases v2 <;> simp_all [isStr] <;> exact ⟨_, rfl⟩
    · intro h
      cases v0 <;> cases v1 <;> cases v2 <;> simp_all [isStr] <;> rfl

/-- C5 amended witness: a correctly typed 3-tuple deserializes successfully,
a wrong-length tuple hits the `MalformedState` branch, and a 3-tuple with a
string in a non-string slot hits the cast error. -/
theorem dataConfigSetState_spec_witness :
    dataConfigSetState [PyVal.str ("/data"), PyVal.bool true, PyVal.int 2] =
        Except.ok ⟨"/data", true, 2⟩ ∧
      dataConfigSetState [PyVal.int 7] = Except.error PickleErr.malformedState ∧
      dataConfigSetState [PyVal.str ("x"), PyVal.str ("y"), PyVal.int 0] =
        Except.error PickleErr.castError :=
  ⟨(dataConfigSetState_spec _).2.1 ("/data") true 2 rfl,
   (dataConfigSetState_spec [PyVal.int 7]).1 (by decide),
   ((dataConfigSetState_spec [PyVal.str ("x"), PyVal.str ("y"), PyVal.int 0]).2.2
      _ _ _ rfl).2 (Or.inr (Or.inl rfl))⟩

/-- C1: on a chain of N = 3 blocks, `at(-4)` (that is, `at(-N-1)`) resolves
to height -1 after the single `+= N` adjustment; the code's only bounds
check is `i >= chain.size()`, so no `IndexOutOfRange` is raised and the raw
access `chain[-1]` proceeds out of bounds, contradicting both the claim and
the code's conventional-negative-indexing intent. -/
theorem blockchainAt_neg_oob :
    blockchainAt 3 (-4) = Except.ok (-1) ∧
      blockchainAt 3 (-4) ≠ Except.error BErr.indexOutOfRange ∧
      ¬ (0 ≤ (-1 : Int)) := by
  refine ⟨rfl, ?_, by decide⟩
  intro h
  exact Except.noConfusion h

/-- C2: for every chain (as its per-block transaction counts) and every
chunk count K, `segmentIndexes` fails with `InvalidArgument` for K ≤ 0; for
K ≥ 1 it returns exactly K ranges that are within bounds, contiguous,
pairwise disjoint, and cover `[0, N)` exactly, whose per-range transaction
counts sum to the total T; and K > N forces some empty range. -/
theorem segmentIndexes_spec (counts : List Nat) (K : Int) :
    (K ≤ 0 → segmentIndexes counts K = Except.error BErr.invalidArgument) ∧
    (0 < K →
      segmentIndexes counts K = Except.ok (segs counts K.toNat) ∧
      (segs counts K.toNat).length = K.toNat ∧
      (∀ p ∈ segs counts K.toNat, p.1 ≤ p.2 ∧ p.2 ≤ counts.length) ∧
      (∀ (j : Nat) (hj : j + 1 < (segs counts K.toNat).length),
        ((segs counts K.toNat).get ⟨j, Nat.lt_of_succ_lt hj⟩).2 =
          ((segs counts K.toNat).get ⟨j + 1, hj⟩).1) ∧
      (segs counts K.toNat).Pairwise (fun p q => p.2 ≤ q.1) ∧
      (∀ h, h < counts.length →
        ∃ p ∈ segs counts K.toNat, p.1 ≤ h ∧ h < p.2) ∧
      ((segs counts K.toNat).map (rangeTxCount counts)).sum = counts.sum ∧
      ((counts.length : Int) < K →
        ∃ p ∈ segs counts K.toNat, p.1 = p.2)) := by
  constructor
  · intro hK
    unfold segmentIndexes
    rw [if_pos hK]
  · intro hK
    have hK0 : 0 < K.toNat := by omega
    refine ⟨?_, segs_length counts K.toNat, ?_, ?_, ?_, ?_, ?_, ?_⟩
    · unfold segmentIndexes
      rw [if_neg (show ¬ K ≤ 0 by omega)]
    · intro p hp
      rcases (mem_segs counts K.toNat p).mp hp with ⟨j, hj, rfl⟩
      exact ⟨segBoundary_step counts K.toNat hK0 j,
        segBoundary_le counts K.toNat hK0 (j + 1)⟩
    · intro j hj
      rw [segs_get counts K.toNat j (Nat.lt_of_succ_lt hj),
        segs_get counts K.toNat (j + 1) hj]
    · unfold segs
      rw [List.pairwise_map]
      apply List.Pairwise.imp ?_ (List.pairwise_lt_range K.toNat)
      intro a b' hab
      exact segBoundary_mono counts K.toNat hK0 (a + 1) b' hab
    · intro h hh
      have h0 : segBoundary counts K.toNat 0 ≤ h := by
        rw [segBoundary_zero]
        exact Nat.zero_le h
      have hN : h < segBoundary counts K.toNat K.toNat := by
        rw [segBoundary_last counts K.toNat hK0]
        exact hh
      rcases exists_cross (segBoundary counts K.toNat) K.toNat h h0 hN with
        ⟨j, hj, hbl, hbr⟩
      exact ⟨(segBoundary counts K.toNat j, segBoundary counts K.toNat (j + 1)),
        (mem_segs counts K.toNat _).mpr ⟨j, hj, rfl⟩, hbl, hbr⟩
    · have hmap : (segs counts K.toNat).map (rangeTxCount counts) =
          (List.range K.toNat).map
            (fun j => prefixTxCount counts (segBoundary counts K.toNat (j + 1)) -
              prefixTxCount counts (segBoundary counts K.toNat j)) := by
        unfold segs
        rw [List.map_map]
        apply List.map_congr_left
        intro j _
        exact rangeTxCount_eq counts (segBoundary counts K.toNat (j + 1))
          (segBoundary counts K.toNat j) (segBoundary_step counts K.toNat hK0 j)
      rw [hmap]
      have htel := sum_telescope
        (fun j => prefixTxCount counts (segBoundary counts K.toNat j))
        (fun j => prefixTxCount_mono counts _ _
          (segBoundary_step counts K.toNat hK0 j)) K.toNat
      refine htel.trans ?_
      rw [segBoundary_last counts K.toNat hK0, segBoundary_zero,
        prefixTxCount_length]
      simp [prefixTxCount]
    · intro hNK
      by_contra hc
      push_neg at hc
      have hone : ∀ x ∈ (segs counts K.toNat).map (fun p => p.2 - p.1), 1 ≤ x := by
        intro x hx
        rcases List.mem_map.mp hx with ⟨p, hp, rfl⟩
        have hne := hc p hp
        rcases (mem_segs counts K.toNat p).mp hp with ⟨j, hj, rfl⟩
        have hstep := segBoundary_step counts K.toNat hK0 j
        have hne' : segBoundary counts K.toNat j ≠
            segBoundary counts K.toNat (j + 1) := hne
        show 1 ≤ segBoundary counts K.toNat (j + 1) - segBoundary counts K.toNat j
        omega
      have hlen := length_le_sum _ hone
      rw [List.length_map, segs_length] at hlen
      have hmap2 : (segs counts K.toNat).map (fun p => p.2 - p.1) =
          (List.range K.toNat).map
            (fun j => segBoundary counts K.toNat (j + 1) -
              segBoundary counts K.toNat j) := by
        unfold segs
        rw [List.map_map]
        rfl
      have htel2 := sum_telescope (segBoundary counts K.toNat)
        (segBoundary_step counts K.toNat hK0) K.toNat
      rw [hmap2, htel2, segBoundary_last counts K.toNat hK0, segBoundary_zero,
        Nat.sub_zero] at hlen
      omega

/-- C2 witness: on the chain [2,5,3], K = -1 is rejected and K = 2 yields
ranges whose transaction counts sum to T = 10. -/
theorem segmentIndexes_spec_witness :
    segmentIndexes [2, 5, 3] (-1) = Except.error BErr.invalidArgument ∧
      segmentIndexes [2, 5, 3] 2 = Except.ok (segs [2, 5, 3] 2) ∧
      ((segs [2, 5, 3] 2).map (rangeTxCount [2, 5, 3])).sum = 10 :=
  ⟨(segmentIndexes_spec [2, 5, 3] (-1)).1 (by norm_num),
   ((segmentIndexes_spec [2, 5, 3] 2).2 (by norm_num)).1,
   ((segmentIndexes_spec [2, 5, 3] 2).2 (by norm_num)).2.2.2.2.2.2.1⟩

/-- C3 counterexample: on the literal chain [2,5,3] with K = 2 the greedy
prefix-sum walk cuts after block 1 — the running total 7 is the first to
reach the target 1·T/K = 5 — so the boundaries are [0,2), [2,3), not the
pair [0,1), [1,3) the claim asserts. -/
theorem segmentIndexes_example_ne :
    segmentIndexes [2, 5, 3] 2 ≠ Except.ok [(0, 1), (1, 3)] := by
  intro h
  rw [show segmentIndexes [2, 5, 3] 2 = Except.ok [(0, 2), (2, 3)] from rfl] at h
  simp at h

/-- C3 amended: `segmentIndexes(2)` on the chain [2,5,3] produces exactly
the boundary pair [0,2), [2,3): the greedy rule cuts as soon as the running
total (7 after block 1) reaches or exceeds 1·T/K = 5, and this split also
minimizes |prefixSum - 5| over block boundaries (|7-5| = 2 < |2-5| = 3). -/
theorem segmentIndexes_example :
    segmentIndexes [2, 5, 3] 2 = Except.ok [(0, 2), (2, 3)] := rfl

/-- C6 counterexample: slice(3, 1, 1) on a 4-block chain adjusts to start 3
and stop 1; the claim's conventional slice semantics call for the empty
block sequence, but the code hands (3, 1) to `ranges::view::slice`, whose
`0 ≤ from ≤ to` precondition is violated — an assertion abort in debug
builds and undefined behavior otherwise, not an empty result. -/
theorem blockchainSlice_start_gt_stop :
    blockchainSlice 4 3 1 1 = SliceOutcome.ub ∧
      blockchainSlice 4 3 1 1 ≠ SliceOutcome.ok [] := by
  refine ⟨rfl, ?_⟩
  intro h
  exact SliceOutcome.noConfusion h

/-- C6 amended: slice access with step 0 fails with `InvalidSlice`; with a
positive step (below the word size), when the adjusted start does not exceed
the adjusted stop the result is exactly the blocks at positions
`start, start+s, start+2s, …` while below `stop`, where `start`/`stop` are
the arguments clipped to `[0, N]`; when the adjusted start exceeds the
adjusted stop the slice call violates `ranges::view::slice`'s precondition
(abort / undefined behavior) instead of returning the empty sequence; and
`slice(0, N, 1)` equals full forward iteration. -/
theorem blockchainSlice_spec (N : Nat) (a b s : Int) (hN : N < 2 ^ 64) :
    (s = 0 → blockchainSlice N a b s = SliceOutcome.err BErr.invalidSlice) ∧
    (0 < s → s < 2 ^ 64 → pyStartPos N a ≤ pyStopPos N b →
      blockchainSlice N a b s =
        SliceOutcome.ok (List.range' (pyStartPos N a)
          ((pyStopPos N b - pyStartPos N a + s.toNat - 1) / s.toNat) s.toNat) ∧
      (∀ h : Nat,
        h ∈ List.range' (pyStartPos N a)
            ((pyStopPos N b - pyStartPos N a + s.toNat - 1) / s.toNat) s.toNat ↔
          ∃ j : Nat, h = pyStartPos N a + j * s.toNat ∧ h < pyStopPos N b)) ∧
    (0 < s → pyStopPos N b < pyStartPos N a →
      blockchainSlice N a b s = SliceOutcome.ub) ∧
    blockchainSlice N 0 (N : Int) 1 = SliceOutcome.ok (blockchainIter N) := by
  refine ⟨?_, ?_, ?_, ?_⟩
  · intro hs
    unfold blockchainSlice
    rw [if_pos hs]
  · intro hs hs64 hab
    refine ⟨blockchainSlice_pos N a b s hN hs hs64 hab, ?_⟩
    intro h
    exact mem_stride_range (pyStartPos N a) (pyStopPos N b) s.toNat h (by omega)
  · intro hs hba
    have hsne : ¬ s = 0 := by omega
    have hneg : decide (s < 0) = false := decide_eq_false (by omega)
    have hstart0 := pySliceAdjust_nonneg N a
    have hstart1 := pySliceAdjust_le N a
    have hstop0 := pySliceAdjust_nonneg N b
    have hstop1 := pySliceAdjust_le N b
    have hba' : (pySliceAdjust N b false).toNat <
        (pySliceAdjust N a false).toNat := hba
    unfold blockchainSlice
    rw [if_neg hsne, hneg,
      toSizeT_eq_toNat _ hstart0 (by omega), toSizeT_eq_toNat _ hstop0 (by omega),
      if_pos hba']
  · have h1 : pyStartPos N 0 = 0 := by
      unfold pyStartPos pySliceAdjust
      simp only [Bool.false_eq_true, if_false]
      split_ifs <;> omega
    have h2 : pyStopPos N (N : Int) = N := by
      unfold pyStopPos pySliceAdjust
      simp only [Bool.false_eq_true, if_false]
      split_ifs <;> omega
    rw [blockchainSlice_pos N 0 (N : Int) 1 hN (by norm_num) (by norm_num)
      (by rw [h1, h2]; exact Nat.zero_le N), h1, h2]
    norm_num
    rw [← List.range_eq_range']
    rfl

/-- C6 amended witness: on a 4-block chain, slice(1, 9, 2) clips the stop
to 4 and returns the blocks at heights 1 and 3; step 0 is rejected;
slice(3, 1, 1) hits the slice-view precondition; and slice(0, 4, 1) equals
forward iteration. -/
theorem blockchainSlice_spec_witness :
    blockchainSlice 4 1 9 2 = SliceOutcome.ok [1, 3] ∧
      blockchainSlice 4 1 9 0 = SliceOutcome.err BErr.invalidSlice ∧
      blockchainSlice 4 3 1 1 = SliceOutcome.ub ∧
      blockchainSlice 4 0 4 1 = SliceOutcome.ok [0, 1, 2, 3] :=
  ⟨((blockchainSlice_spec 4 1 9 2 (by norm_num)).2.1 (by norm_num) (by norm_num)
      (by decide)).1,
   (blockchainSlice_spec 4 1 9 0 (by norm_num)).1 rfl,
   (blockchainSlice_spec 4 3 1 1 (by norm_num)).2.2.1 (by norm_num) (by decide),
   (blockchainSlice_spec 4 0 4 1 (by norm_num)).2.2.2⟩

/-- C7: `txWithHash` fails with `NotFound` exactly when no transaction in
the store carries the hash, and otherwise returns a transaction whose own
hash equals the queried one. -/
theorem txWithHash_spec (txHashes : List Nat) (h : Nat) :
    (h ∉ txHashes → txWithHash txHashes h = Except.error BErr.notFound) ∧
    (h ∈ txHashes →
      ∃ i, txWithHash txHashes h = Except.ok i ∧ txHash txHashes i = h) := by
  constructor
  · intro hm
    unfold txWithHash
    rw [hashIndexLookup_not_mem txHashes h hm]
  · intro hm
    rcases hashIndexLookup_mem txHashes h hm with ⟨i, hl, hh⟩
    refine ⟨i, ?_, hh⟩
    unfold txWithHash
    rw [hl]

/-- C7 witness: in the store with hashes [5, 7], hash 9 is absent and hash 7
resolves to the transaction at dense index 1. -/
theorem txWithHash_spec_witness :
    txWithHash [5, 7] 9 = Except.error BErr.notFound ∧
      txWithHash [5, 7] 7 = Except.ok 1 :=
  ⟨(txWithHash_spec [5, 7] 9).1 (by decide), rfl⟩

/-- C8: `addressFromString` fails with `MalformedAddress` when the string
parses as no known encoding, returns an absent optional (not an error) when
it is well-formed but unknown to the AddressIndex, and returns the known
address's script variant otherwise. -/
theorem addressFromString_spec (world : String → AddrLookup)
    (scripts : AddressType → List ScriptVariant) (s : String) :
    (world s = AddrLookup.malformed →
      addressFromString world scripts s = Except.error BErr.malformedAddress) ∧
    (world s = AddrLookup.unknown →
      addressFromString world scripts s = Except.ok none) ∧
    (∀ i t, world s = AddrLookup.known i t →
      addressFromString world scripts s =
        Except.ok (some (addressScript scripts i t))) := by
  refine ⟨?_, ?_, ?_⟩
  · intro h
    simp [addressFromString, getAddressFromString, h]
  · intro h
    simp [addressFromString, getAddressFromString, h]
  · intro i t h
    simp [addressFromString, getAddressFromString, h]

/-- C8 witness: in the sample world, an unparseable string fails with
`MalformedAddress`, a well-formed unknown one yields an absent optional, and
the known one yields its script. -/
theorem addressFromString_spec_witness :
    addressFromString sampleWorld sampleScripts ("bad") =
        Except.error BErr.malformedAddress ∧
      addressFromString sampleWorld sampleScripts ("absent") = Except.ok none ∧
      addressFromString sampleWorld sampleScripts ("known") =
        Except.ok (some ⟨AddressType.pubkeyhash, 11⟩) :=
  ⟨(addressFromString_spec sampleWorld sampleScripts ("bad")).1 rfl,
   (addressFromString_spec sampleWorld sampleScripts ("absent")).2.1 rfl,
   (addressFromString_spec sampleWorld sampleScripts ("known")).2.2 1
     AddressType.pubkeyhash rfl⟩

/-- C9: `addressFromIndex` fails with `IndexOutOfRange` exactly when the
index is at or beyond `addressCount(type)` — in particular at the count
itself — and succeeds at every smaller index, in particular at
`addressCount(type) - 1`, returning that address's script variant. -/
theorem addressFromIndex_spec (scripts : AddressType → List ScriptVariant)
    (i : Nat) (t : AddressType) :
    (addressCount scripts t ≤ i →
      addressFromIndex scripts i t = Except.error BErr.indexOutOfRange) ∧
    (∀ hi : i < addressCount scripts t,
      addressFromIndex scripts i t = Except.ok ((scripts t).get ⟨i, hi⟩)) := by
  constructor
  · intro hle
    unfold addressFromIndex
    rw [List.getElem?_eq_none hle]
  · intro hi
    unfold addressFromIndex
    rw [List.getElem?_eq_getElem hi, List.get_eq_getElem]

/-- C9 witness: the sample store has 2 pubkeyhash scripts; index 2 (the
count) fails with `IndexOutOfRange` and index 1 (count - 1) succeeds. -/
theorem addressFromIndex_spec_witness :
    addressFromIndex sampleScripts 2 AddressType.pubkeyhash =
        Except.error BErr.indexOutOfRange ∧
      addressFromIndex sampleScripts 1 AddressType.pubkeyhash =
        Except.ok ⟨AddressType.pubkeyhash, 11⟩ :=
  ⟨(addressFromIndex_spec sampleScripts 2 AddressType.pubkeyhash).1
      (by decide),
   (addressFromIndex_spec sampleScripts 1 AddressType.pubkeyhash).2
      (by decide)⟩

end BlockSci
